import Mathlib

/-!
Shallow embedding of `src/algo/c/src/example.c` (binary search over a
sorted integer array, plus a demonstration `main`) and proofs of the
specification's claims about it.

The C `int` values are modelled as unbounded `Int`; C's `/` on `int`
truncates toward zero, which is `Int.tdiv` in Lean.  The array is a
`List Int`; the separately-passed length `n` is kept as an explicit
argument, as in the C signature.  Array reads `arr[mid]` are modelled
with `List.getD _ _ 0` (a total read); a bounds-checked variant
records that in actual runs every read is in bounds, and a
state-threading variant records that the array is never written.
-/

namespace BinarySearchC

/-- The midpoint computation of line 11 of `example.c`:
`int mid = left + (right - left) / 2;`.  C's `/` on `int` truncates
toward zero, which is `Int.tdiv`. -/
def c_mid (left right : Int) : Int :=
  left + (right - left).tdiv 2

/-- The `while (left <= right)` loop of `binary_search`
(`src/algo/c/src/example.c`, lines 10-15): compute the midpoint, return
it on a hit, continue on the half that can still hold the target, and
return `-1` once the interval is empty. -/
def binary_search_loop (arr : List Int) (target : Int) (left right : Int) : Int :=
  if left ≤ right then
    if arr.getD (c_mid left right).toNat 0 = target then
      c_mid left right
    else if arr.getD (c_mid left right).toNat 0 < target then
      binary_search_loop arr target (c_mid left right + 1) right
    else
      binary_search_loop arr target left (c_mid left right - 1)
  else
    -1
termination_by (right + 1 - left).toNat
decreasing_by
  all_goals
    unfold c_mid
    rw [Int.tdiv_eq_ediv (by omega) (by omega)]
    omega

/-- `binary_search(int arr[], int n, int target)` from
`src/algo/c/src/example.c`, lines 6-18: `left = 0`, `right = n - 1`,
then the loop. -/
def binary_search (arr : List Int) (n : Int) (target : Int) : Int :=
  binary_search_loop arr target 0 (n - 1)

/-- Fuel-indexed (step-counting) version of the loop, structurally
recursive and hence kernel-computable: `none` means the fuel ran out
before the loop exited.  Each unit of fuel pays for one evaluation of
the loop guard `left <= right`. -/
def binary_search_fuel (fuel : Nat) (arr : List Int) (target : Int)
    (left right : Int) : Option Int :=
  match fuel with
  | 0 => none
  | fuel + 1 =>
    if left ≤ right then
      if arr.getD (c_mid left right).toNat 0 = target then
        some (c_mid left right)
      else if arr.getD (c_mid left right).toNat 0 < target then
        binary_search_fuel fuel arr target (c_mid left right + 1) right
      else
        binary_search_fuel fuel arr target left (c_mid left right - 1)
    else
      some (-1)

/-- State-threading version of the loop: the machine state visible to
the caller is the array, and the C loop body contains no store to
`arr`, so each iteration passes the array through unchanged; the
result is the returned value paired with the final array state. -/
def binary_search_loop_state (arr : List Int) (target : Int)
    (left right : Int) : Int × List Int :=
  if left ≤ right then
    if arr.getD (c_mid left right).toNat 0 = target then
      (c_mid left right, arr)
    else if arr.getD (c_mid left right).toNat 0 < target then
      binary_search_loop_state arr target (c_mid left right + 1) right
    else
      binary_search_loop_state arr target left (c_mid left right - 1)
  else
    (-1, arr)
termination_by (right + 1 - left).toNat
decreasing_by
  all_goals
    unfold c_mid
    rw [Int.tdiv_eq_ediv (by omega) (by omega)]
    omega

/-- `binary_search` with the array state threaded through. -/
def binary_search_state (arr : List Int) (n : Int) (target : Int) :
    Int × List Int :=
  binary_search_loop_state arr target 0 (n - 1)

/-- Bounds-checked variant of the loop: the read `arr[mid]` is
performed only after checking `0 <= mid < arr.length`; reaching an
out-of-bounds read yields `none`. -/
def binary_search_loop_chk (arr : List Int) (target : Int)
    (left right : Int) : Option Int :=
  if left ≤ right then
    if 0 ≤ c_mid left right ∧ (c_mid left right).toNat < arr.length then
      if arr.getD (c_mid left right).toNat 0 = target then
        some (c_mid left right)
      else if arr.getD (c_mid left right).toNat 0 < target then
        binary_search_loop_chk arr target (c_mid left right + 1) right
      else
        binary_search_loop_chk arr target left (c_mid left right - 1)
    else
      none
  else
    some (-1)
termination_by (right + 1 - left).toNat
decreasing_by
  all_goals
    unfold c_mid
    rw [Int.tdiv_eq_ediv (by omega) (by omega)]
    omega

/-- The fixed array `{1, 3, 5, 7, 9, 11, 13}` built by `main`
(`example.c`, line 21). -/
def main_arr : List Int := [1, 3, 5, 7, 9, 11, 13]

/-- `n = sizeof(arr) / sizeof(arr[0])` (line 22): the element count. -/
def main_n : Int := (main_arr.length : Int)

/-- The text `main` writes to standard output (lines 24-25): each
`printf("%d\n", ...)` renders one search result in decimal followed by
a newline, so stdout is a list of two newline-terminated lines. -/
def main_stdout : List String :=
  [toString (binary_search main_arr main_n 7) ++ "\n",
   toString (binary_search main_arr main_n 4) ++ "\n"]

/-- The value `main` returns (line 27). -/
def main_ret : Int := 0

/-- Largest value of the C type `int` (32-bit two's complement). -/
def INT_MAX : Int := 2 ^ 31 - 1

/-- Smallest value of the C type `int` (32-bit two's complement). -/
def INT_MIN : Int := -(2 ^ 31)

/-- Truncating division by two agrees with Euclidean division on
non-negative numerators (the only case the loop ever evaluates). -/
theorem tdiv_two_eq_ediv_two (a : Int) (h : 0 ≤ a) : a.tdiv 2 = a / 2 :=
  Int.tdiv_eq_ediv h (by omega)

/-- In a non-empty closed interval the midpoint stays inside it. -/
theorem c_mid_bounds (left right : Int) (h : left ≤ right) :
    left ≤ c_mid left right ∧ c_mid left right ≤ right := by
  unfold c_mid
  rw [tdiv_two_eq_ediv_two _ (by omega)]
  omega

/-- With fuel exceeding the width of the initial interval, the
fuel-indexed loop completes and agrees with the recursive loop: the
loop always terminates, in at most `right + 1 - left` guard checks,
because the interval strictly shrinks each iteration. -/
theorem binary_search_fuel_eq (arr : List Int) (target : Int) :
    ∀ (fuel : Nat) (left right : Int), (right + 1 - left).toNat < fuel →
      binary_search_fuel fuel arr target left right
        = some (binary_search_loop arr target left right) := by
  intro fuel
  induction fuel with
  | zero => intro left right h; omega
  | succ fuel ih =>
    intro left right h
    rw [binary_search_fuel, binary_search_loop.eq_def]
    by_cases hle : left ≤ right
    · have hmid := c_mid_bounds left right hle
      rw [if_pos hle, if_pos hle]
      by_cases heq : arr.getD (c_mid left right).toNat 0 = target
      · rw [if_pos heq, if_pos heq]
      · rw [if_neg heq, if_neg heq]
        by_cases hlt : arr.getD (c_mid left right).toNat 0 < target
        · rw [if_pos hlt, if_pos hlt]
          exact ih (c_mid left right + 1) right (by omega)
        · rw [if_neg hlt, if_neg hlt]
          exact ih left (c_mid left right - 1) (by omega)
    · rw [if_neg hle, if_neg hle]

/-- Range/hit invariant: whatever the fuel loop returns is either the
sentinel `-1` (exit branch) or a position inside the current interval
whose element compares equal to the target. -/
theorem binary_search_fuel_range (arr : List Int) (target : Int) :
    ∀ (fuel : Nat) (left right r : Int),
      binary_search_fuel fuel arr target left right = some r →
      r = -1 ∨ (left ≤ r ∧ r ≤ right ∧ arr.getD r.toNat 0 = target) := by
  intro fuel
  induction fuel with
  | zero => intro left right r h; simp [binary_search_fuel] at h
  | succ fuel ih =>
    intro left right r h
    rw [binary_search_fuel] at h
    by_cases hle : left ≤ right
    · rw [if_pos hle] at h
      have hmid := c_mid_bounds left right hle
      by_cases heq : arr.getD (c_mid left right).toNat 0 = target
      · rw [if_pos heq] at h
        have hr := Option.some.inj h
        subst hr
        exact Or.inr ⟨hmid.1, hmid.2, heq⟩
      · rw [if_neg heq] at h
        by_cases hlt : arr.getD (c_mid left right).toNat 0 < target
        · rw [if_pos hlt] at h
          rcases ih _ _ _ h with h1 | ⟨h1, h2, h3⟩
          · exact Or.inl h1
          · exact Or.inr ⟨by omega, h2, h3⟩
        · rw [if_neg hlt] at h
          rcases ih _ _ _ h with h1 | ⟨h1, h2, h3⟩
          · exact Or.inl h1
          · exact Or.inr ⟨h1, by omega, h3⟩
    · rw [if_neg hle] at h
      exact Or.inl (Option.some.inj h).symm

/-- The same range/hit invariant for the recursive loop itself. -/
theorem binary_search_loop_range (arr : List Int) (target : Int) (left right : Int) :
    binary_search_loop arr target left right = -1 ∨
      (left ≤ binary_search_loop arr target left right ∧
        binary_search_loop arr target left right ≤ right ∧
        arr.getD (binary_search_loop arr target left right).toNat 0 = target) :=
  binary_search_fuel_range arr target ((right + 1 - left).toNat + 1) left right _
    (binary_search_fuel_eq arr target _ left right (by omega))

/-- A non-descending list read via `getD` is monotone on in-bounds
positions. -/
theorem sorted_getD_mono (arr : List Int) (hs : List.Sorted (· ≤ ·) arr)
    (i j : Nat) (hij : i ≤ j) (hj : j < arr.length) :
    arr.getD i 0 ≤ arr.getD j 0 := by
  have hi : i < arr.length := lt_of_le_of_lt hij hj
  rw [List.getD_eq_getElem arr 0 hi, List.getD_eq_getElem arr 0 hj]
  exact hs.rel_get_of_le (show (⟨i, hi⟩ : Fin arr.length) ≤ ⟨j, hj⟩ from hij)

/-- Completeness on sorted input: if some in-bounds position inside the
current interval holds the target, the fuel loop (given enough fuel)
returns a non-negative result, never the sentinel. -/
theorem binary_search_fuel_found (arr : List Int) (target : Int)
    (hs : List.Sorted (· ≤ ·) arr) :
    ∀ (fuel : Nat) (left right : Int) (k : Nat),
      0 ≤ left → right ≤ (arr.length : Int) - 1 →
      left ≤ (k : Int) → (k : Int) ≤ right → arr.getD k 0 = target →
      (right + 1 - left).toNat < fuel →
      ∃ r : Int, 0 ≤ r ∧
        binary_search_fuel fuel arr target left right = some r := by
  intro fuel
  induction fuel with
  | zero => intro left right k _ _ hk1 hk2 _ hf; omega
  | succ fuel ih =>
    intro left right k hl hr hk1 hk2 hk3 hf
    have hle : left ≤ right := le_trans hk1 hk2
    have hmid := c_mid_bounds left right hle
    have hmidnn : 0 ≤ c_mid left right := le_trans hl hmid.1
    have hmidlen : (c_mid left right).toNat < arr.length := by omega
    have hklen : k < arr.length := by omega
    rw [binary_search_fuel, if_pos hle]
    by_cases heq : arr.getD (c_mid left right).toNat 0 = target
    · rw [if_pos heq]
      exact ⟨c_mid left right, hmidnn, rfl⟩
    · rw [if_neg heq]
      by_cases hlt : arr.getD (c_mid left right).toNat 0 < target
      · rw [if_pos hlt]
        have hkgt : c_mid left right < (k : Int) := by
          by_contra hcon
          push_neg at hcon
          have := sorted_getD_mono arr hs k (c_mid left right).toNat
            (by omega) hmidlen
          omega
        exact ih (c_mid left right + 1) right k (by omega) hr (by omega) hk2
          hk3 (by omega)
      · rw [if_neg hlt]
        have hklt : (k : Int) < c_mid left right := by
          by_contra hcon
          push_neg at hcon
          have := sorted_getD_mono arr hs (c_mid left right).toNat k
            (by omega) hklen
          omega
        exact ih left (c_mid left right - 1) k hl (by omega) hk1 (by omega)
          hk3 (by omega)

/-- Evaluation bridge: a kernel-computed run of the fuel loop with fuel
`n.toNat + 1` determines the value of `binary_search`. -/
theorem binary_search_eval (arr : List Int) (n target r : Int)
    (h : binary_search_fuel (n.toNat + 1) arr target 0 (n - 1) = some r) :
    binary_search arr n target = r :=
  Option.some.inj
    ((binary_search_fuel_eq arr target (n.toNat + 1) 0 (n - 1) (by omega)).symm.trans h)

/-- The state-threading loop returns the same value as the plain loop
and leaves the array exactly as it received it: no iteration writes to
the array. -/
theorem binary_search_loop_state_eq (arr : List Int) (target : Int) :
    ∀ (w : Nat) (left right : Int), (right + 1 - left).toNat = w →
      binary_search_loop_state arr target left right
        = (binary_search_loop arr target left right, arr) := by
  intro w
  induction w using Nat.strong_induction_on with
  | _ w ih =>
    intro left right hw
    rw [binary_search_loop_state.eq_def, binary_search_loop.eq_def]
    by_cases hle : left ≤ right
    · have hmid := c_mid_bounds left right hle
      rw [if_pos hle, if_pos hle]
      by_cases heq : arr.getD (c_mid left right).toNat 0 = target
      · rw [if_pos heq, if_pos heq]
      · rw [if_neg heq, if_neg heq]
        by_cases hlt : arr.getD (c_mid left right).toNat 0 < target
        · rw [if_pos hlt, if_pos hlt]
          exact ih _ (by omega) _ _ rfl
        · rw [if_neg hlt, if_neg hlt]
          exact ih _ (by omega) _ _ rfl
    · rw [if_neg hle, if_neg hle]

/-- When the interval is inside the array bounds, the bounds-checked
loop never reaches its out-of-bounds branch and agrees with the plain
loop. -/
theorem binary_search_loop_chk_eq (arr : List Int) (target : Int) :
    ∀ (w : Nat) (left right : Int), (right + 1 - left).toNat = w →
      0 ≤ left → right ≤ (arr.length : Int) - 1 →
      binary_search_loop_chk arr target left right
        = some (binary_search_loop arr target left right) := by
  intro w
  induction w using Nat.strong_induction_on with
  | _ w ih =>
    intro left right hw hl hr
    rw [binary_search_loop_chk.eq_def, binary_search_loop.eq_def]
    by_cases hle : left ≤ right
    · have hmid := c_mid_bounds left right hle
      rw [if_pos hle, if_pos hle]
      have hb : 0 ≤ c_mid left right ∧ (c_mid left right).toNat < arr.length := by
        constructor <;> omega
      rw [if_pos hb]
      by_cases heq : arr.getD (c_mid left right).toNat 0 = target
      · rw [if_pos heq, if_pos heq]
      · rw [if_neg heq, if_neg heq]
        by_cases hlt : arr.getD (c_mid left right).toNat 0 < target
        · rw [if_pos hlt, if_pos hlt]
          exact ih _ (by omega) _ _ rfl (by omega) hr
        · rw [if_neg hlt, if_neg hlt]
          exact ih _ (by omega) _ _ rfl hl (by omega)
    · rw [if_neg hle, if_neg hle]

/-- Claim C1: for every sequence `S` sorted in non-descending order and
every index `i` with `0 <= i < len(S)`, `binary_search(S, len(S), S[i])`
returns some index `j` such that `S[j] == S[i]`. -/
theorem claim_C1_finds_present (S : List Int) (hs : List.Sorted (· ≤ ·) S)
    (i : Nat) (hi : i < S.length) :
    ∃ j : Nat, binary_search S (S.length : Int) (S.getD i 0) = (j : Int) ∧
      j < S.length ∧ S.getD j 0 = S.getD i 0 := by
  obtain ⟨r, hr0, hr⟩ := binary_search_fuel_found S (S.getD i 0) hs
    (S.length + 1) 0 ((S.length : Int) - 1) i (le_refl 0) (by omega)
    (by omega) (by omega) rfl (by omega)
  have heq := binary_search_fuel_eq S (S.getD i 0) (S.length + 1) 0
    ((S.length : Int) - 1) (by omega)
  have hloop : binary_search_loop S (S.getD i 0) 0 ((S.length : Int) - 1) = r :=
    Option.some.inj (heq.symm.trans hr)
  have hrange := binary_search_loop_range S (S.getD i 0) 0 ((S.length : Int) - 1)
  rw [hloop] at hrange
  rcases hrange with h1 | ⟨h1, h2, h3⟩
  · omega
  · refine ⟨r.toNat, ?_, by omega, h3⟩
    rw [binary_search, hloop]
    omega

theorem claim_C1_witness :
    List.Sorted (· ≤ ·) ([2, 4, 6] : List Int) ∧ 1 < ([2, 4, 6] : List Int).length ∧
      ∃ j : Nat,
        binary_search [2, 4, 6] (([2, 4, 6] : List Int).length : Int)
          (([2, 4, 6] : List Int).getD 1 0) = (j : Int) ∧
        j < ([2, 4, 6] : List Int).length ∧
        ([2, 4, 6] : List Int).getD j 0 = ([2, 4, 6] : List Int).getD 1 0 :=
  ⟨by decide, by decide, claim_C1_finds_present [2, 4, 6] (by decide) 1 (by decide)⟩

/-- Claim C2: for every sequence `S` sorted in non-descending order and
every integer `v` that does not occur in `S`,
`binary_search(S, len(S), v)` returns the absence marker `-1`. -/
theorem claim_C2_absent_returns_sentinel (S : List Int)
    (hs : List.Sorted (· ≤ ·) S) (v : Int) (hv : v ∉ S) :
    binary_search S (S.length : Int) v = -1 := by
  rw [binary_search]
  rcases binary_search_loop_range S v 0 ((S.length : Int) - 1) with h | ⟨h1, h2, h3⟩
  · exact h
  · exfalso
    have hlen : (binary_search_loop S v 0 ((S.length : Int) - 1)).toNat < S.length := by
      omega
    rw [List.getD_eq_getElem S 0 hlen] at h3
    exact hv (h3 ▸ List.getElem_mem hlen)

theorem claim_C2_witness :
    List.Sorted (· ≤ ·) ([1, 3] : List Int) ∧ (2 : Int) ∉ ([1, 3] : List Int) ∧
      binary_search [1, 3] (([1, 3] : List Int).length : Int) 2 = -1 :=
  ⟨by decide, by decide, claim_C2_absent_returns_sentinel [1, 3] (by decide) 2 (by decide)⟩

/-- Claim C3: for every integer `v`, `binary_search` on an empty
sequence (length 0) returns `-1` immediately, without entering the
loop: the guard `low <= high` is false at once (`low = 0`,
`high = -1`), which the fuel loop certifies with a single guard check
and no loop-body iteration. -/
theorem claim_C3_empty_returns_sentinel (arr : List Int) (v : Int) :
    binary_search arr 0 v = -1 ∧
      (0 : Int) - 1 = -1 ∧
      binary_search_fuel 1 arr v 0 ((0 : Int) - 1) = some (-1) := by
  refine ⟨?_, by norm_num, ?_⟩
  · rw [binary_search, binary_search_loop.eq_def]
    norm_num
  · rw [binary_search_fuel]
    norm_num

/-- Claim C7: on `S = [1, 3, 5, 7, 9, 11, 13]`, searching for the first
element returns index 0 and searching for the last element returns
index 6: `binary_search(S, 7, 1) == 0` and `binary_search(S, 7, 13) == 6`. -/
theorem claim_C7_boundary_hits :
    binary_search [1, 3, 5, 7, 9, 11, 13] 7 1 = 0 ∧
      binary_search [1, 3, 5, 7, 9, 11, 13] 7 13 = 6 :=
  ⟨binary_search_eval [1, 3, 5, 7, 9, 11, 13] 7 1 0 (by decide),
   binary_search_eval [1, 3, 5, 7, 9, 11, 13] 7 13 6 (by decide)⟩

/-- Claim C8: for every sorted sequence `S` and every target, the
result of `binary_search(S, len(S), target)` is either a valid 0-based
index in `[0, len(S))` or the distinguished absence value `-1`; the
two cases never collide since valid indices are non-negative. -/
theorem claim_C8_result_range (S : List Int) (hs : List.Sorted (· ≤ ·) S)
    (target : Int) :
    (binary_search S (S.length : Int) target = -1 ∨
      (0 ≤ binary_search S (S.length : Int) target ∧
        binary_search S (S.length : Int) target < (S.length : Int))) ∧
      ¬((-1 : Int) = binary_search S (S.length : Int) target ∧
        0 ≤ binary_search S (S.length : Int) target) := by
  rw [binary_search]
  rcases binary_search_loop_range S target 0 ((S.length : Int) - 1) with h | ⟨h1, h2, h3⟩
  · exact ⟨Or.inl h, by omega⟩
  · exact ⟨Or.inr ⟨h1, by omega⟩, by omega⟩

theorem claim_C8_witness :
    List.Sorted (· ≤ ·) ([1, 3] : List Int) ∧
      ((binary_search [1, 3] (([1, 3] : List Int).length : Int) 3 = -1 ∨
        (0 ≤ binary_search [1, 3] (([1, 3] : List Int).length : Int) 3 ∧
          binary_search [1, 3] (([1, 3] : List Int).length : Int) 3
            < (([1, 3] : List Int).length : Int))) ∧
        ¬((-1 : Int) = binary_search [1, 3] (([1, 3] : List Int).length : Int) 3 ∧
          0 ≤ binary_search [1, 3] (([1, 3] : List Int).length : Int) 3)) :=
  ⟨by decide, claim_C8_result_range [1, 3] (by decide) 3⟩

/-- Claim C4: on every iteration the midpoint is
`mid = low + (high - low) / 2` with truncating integer division, and
for `0 <= low <= high <= n - 1` with `n` within the `int` range, the
computation and all its intermediate values stay within
`[INT_MIN, INT_MAX]` — while the naive sum `low + high` can exceed
`INT_MAX` under the same constraints. -/
theorem claim_C4_mid_no_overflow (low high n : Int) (h0 : 0 ≤ low)
    (h1 : low ≤ high) (h2 : high ≤ n - 1) (h3 : n ≤ INT_MAX) :
    c_mid low high = low + (high - low).tdiv 2 ∧
      (high - low).tdiv 2 = (high - low) / 2 ∧
      INT_MIN ≤ high - low ∧ high - low ≤ INT_MAX ∧
      INT_MIN ≤ (high - low).tdiv 2 ∧ (high - low).tdiv 2 ≤ INT_MAX ∧
      low ≤ c_mid low high ∧ c_mid low high ≤ high ∧
      INT_MIN ≤ c_mid low high ∧ c_mid low high ≤ INT_MAX ∧
      ∃ a b m : Int, 0 ≤ a ∧ a ≤ b ∧ b ≤ m - 1 ∧ m ≤ INT_MAX ∧
        INT_MAX < a + b := by
  have ht : (high - low).tdiv 2 = (high - low) / 2 :=
    tdiv_two_eq_ediv_two _ (by omega)
  have hm := c_mid_bounds low high h1
  have hM : INT_MAX = 2147483647 := by norm_num [INT_MAX]
  have hN : INT_MIN = -2147483648 := by norm_num [INT_MIN]
  refine ⟨rfl, ht, by omega, by omega, by rw [ht]; omega, by rw [ht]; omega,
    hm.1, hm.2, by omega, by omega, 2147483646, 2147483646, 2147483647,
    by omega, by omega, by omega, by omega, by omega⟩

theorem claim_C4_witness :
    (0 : Int) ≤ 0 ∧ (0 : Int) ≤ 2 ∧ (2 : Int) ≤ 3 - 1 ∧ (3 : Int) ≤ INT_MAX ∧
      (INT_MIN ≤ c_mid 0 2 ∧ c_mid 0 2 ≤ INT_MAX) :=
  ⟨by decide, by decide, by decide, by decide,
   ⟨(claim_C4_mid_no_overflow 0 2 3 (by decide) (by decide) (by decide)
      (by decide)).2.2.2.2.2.2.2.2.1,
    (claim_C4_mid_no_overflow 0 2 3 (by decide) (by decide) (by decide)
      (by decide)).2.2.2.2.2.2.2.2.2.1⟩⟩

/-- Claim C5: binary_search terminates on every input sequence and
target (sorted or not): the fuel loop, given `n + 1` guard checks,
completes and agrees with `binary_search`; the reason is that the
interval width `right - left` strictly decreases on both continuing
branches of every iteration. -/
theorem claim_C5_terminates (arr : List Int) (n target : Int) :
    binary_search_fuel (n.toNat + 1) arr target 0 (n - 1)
        = some (binary_search arr n target) ∧
      ∀ left right : Int, left ≤ right →
        right - (c_mid left right + 1) < right - left ∧
          (c_mid left right - 1) - left < right - left := by
  constructor
  · rw [binary_search]
    exact binary_search_fuel_eq arr target (n.toNat + 1) 0 (n - 1) (by omega)
  · intro left right hle
    have := c_mid_bounds left right hle
    omega

theorem claim_C5_witness :
    binary_search_fuel ((1 : Int).toNat + 1) [3] 5 0 ((1 : Int) - 1)
        = some (binary_search [3] 1 5) ∧
      (0 : Int) ≤ 0 ∧
        (0 : Int) - (c_mid 0 0 + 1) < 0 - 0 ∧ (c_mid 0 0 - 1) - 0 < 0 - 0 :=
  ⟨(claim_C5_terminates [3] 1 5).1, le_refl 0,
   (claim_C5_terminates [3] 1 5).2 0 0 (le_refl 0)⟩

/-- Claim C6: the demonstration entry point, on the fixed sequence
`{1, 3, 5, 7, 9, 11, 13}`, writes exactly two newline-terminated lines
to standard output — `3` for target 7, then `-1` for target 4 — and
returns exit status 0. -/
theorem claim_C6_main_output :
    main_stdout = ["3\n", "-1\n"] ∧ main_ret = 0 := by
  have hn : main_n = 7 := by decide
  have h7 : binary_search main_arr main_n 7 = 3 := by
    rw [hn]; exact binary_search_eval main_arr 7 7 3 (by decide)
  have h4 : binary_search main_arr main_n 4 = -1 := by
    rw [hn]; exact binary_search_eval main_arr 7 4 (-1) (by decide)
  rw [main_stdout, h7, h4]
  exact ⟨by decide, rfl⟩

/-- Claim C9: binary_search is pure and deterministic: two calls whose
arguments are equal value-for-value return equal results, and the
array state after a call is the input array unchanged. -/
theorem claim_C9_pure_deterministic (arr : List Int) (n target : Int)
    (arr2 : List Int) (n2 target2 : Int) (e1 : arr = arr2) (e2 : n = n2)
    (e3 : target = target2) :
    binary_search_state arr n target = (binary_search arr2 n2 target2, arr2) := by
  subst e1; subst e2; subst e3
  rw [binary_search_state, binary_search]
  exact binary_search_loop_state_eq arr target ((n - 1) + 1 - 0).toNat 0 (n - 1) rfl

theorem claim_C9_witness :
    binary_search_state [5] 1 5 = (binary_search [5] 1 5, [5]) :=
  claim_C9_pure_deterministic [5] 1 5 [5] 1 5 rfl rfl rfl

/-- Claim C10: for every array (of any contents, with `n` its length)
and every target, the bounds-checked run never reaches its
out-of-bounds branch: it completes with exactly the value of
`binary_search`, because `0 <= left <= mid <= right <= n - 1` holds
whenever the loop body executes. -/
theorem claim_C10_accesses_in_bounds (arr : List Int) (target : Int) :
    binary_search_loop_chk arr target 0 ((arr.length : Int) - 1)
      = some (binary_search arr (arr.length : Int) target) := by
  rw [binary_search]
  exact binary_search_loop_chk_eq arr target
    (((arr.length : Int) - 1) + 1 - 0).toNat 0 ((arr.length : Int) - 1) rfl
    (le_refl 0) (by omega)

end BinarySearchC
